import Mathlib

/-!
Verification development for `scripts/face_detector.py` of the repository:
a segment-level face-presence decision pipeline.  The script samples frames
of each video segment, asks the MediaPipe detector for per-frame face
counts, aggregates the counts into a segment-level `face_count` by a
frequency (mode) computation, decides a display mode (CENTER or SPLIT),
and for SPLIT extracts up to two relative bounding boxes from the
midpoint frame.

Python floats are modelled as exact rationals.  The arithmetic of the
embedding is expressed through explicit `Rat.divInt` fractions so that the
kernel can evaluate every definition on concrete inputs; the lemmas
`qadd_eq`, `qsub_eq`, `qmul_eq`, `qmin_eq`, `qmax_eq`, `qofInt_eq` identify
these operations with the standard operations on `ℚ`.
-/

/-- Runtime error of the script: the Python exceptions that can escape the
segment loop (`TypeError`, `IndexError`, `ValueError`), the explicit
missing-video-file exit of `main`, and an unexpected error raised by the
external MediaPipe detector. -/
inductive Err where
  | typeError
  | indexError
  | valueError
  | videoNotFound
  | detectorError
deriving DecidableEq

instance {ε α : Type} [DecidableEq ε] [DecidableEq α] : DecidableEq (Except ε α) :=
  fun x y =>
    match x, y with
    | .ok a, .ok b => if h : a = b then .isTrue (by rw [h]) else .isFalse (by simp [h])
    | .error a, .error b => if h : a = b then .isTrue (by rw [h]) else .isFalse (by simp [h])
    | .ok _, .error _ => .isFalse (by simp)
    | .error _, .ok _ => .isFalse (by simp)

/-- A Python value occurring in a segment descriptor: a number (int or
float, modelled as an exact rational) or a string. -/
inductive PyVal where
  | num : ℚ → PyVal
  | str : String → PyVal
deriving DecidableEq

/-- An integer as a rational, written as an explicit fraction so that the
kernel can evaluate it. -/
def qofInt (i : ℤ) : ℚ := Rat.divInt i 1

/-- Kernel-computable addition on `ℚ`. -/
def qadd (a b : ℚ) : ℚ := Rat.divInt (a.num * b.den + b.num * a.den) (a.den * b.den)

/-- Kernel-computable subtraction on `ℚ`. -/
def qsub (a b : ℚ) : ℚ := Rat.divInt (a.num * b.den - b.num * a.den) (a.den * b.den)

/-- Kernel-computable multiplication on `ℚ`. -/
def qmul (a b : ℚ) : ℚ := Rat.divInt (a.num * b.num) (a.den * b.den)

/-- Kernel-computable division on `ℚ`. -/
def qdiv (a b : ℚ) : ℚ := Rat.divInt (a.num * b.den) (a.den * b.num)

/-- Python `min(a, b)` on numbers. -/
def qmin (a b : ℚ) : ℚ := if a < b then a else b

/-- Python `max(a, b)` on numbers. -/
def qmax (a b : ℚ) : ℚ := if a < b then b else a

theorem qofInt_eq (i : ℤ) : qofInt i = (i : ℚ) := by
  rw [qofInt, Rat.divInt_one]

theorem qadd_eq (a b : ℚ) : qadd a b = a + b := by
  conv_rhs => rw [← Rat.num_divInt_den a, ← Rat.num_divInt_den b]
  rw [Rat.divInt_add_divInt _ _ (by exact_mod_cast a.den_ne_zero)
    (by exact_mod_cast b.den_ne_zero)]
  rw [qadd]

theorem qsub_eq (a b : ℚ) : qsub a b = a - b := by
  conv_rhs => rw [← Rat.num_divInt_den a, ← Rat.num_divInt_den b]
  rw [Rat.divInt_sub_divInt _ _ (by exact_mod_cast a.den_ne_zero)
    (by exact_mod_cast b.den_ne_zero)]
  rw [qsub]

theorem qmul_eq (a b : ℚ) : qmul a b = a * b := by
  conv_rhs => rw [← Rat.num_divInt_den a, ← Rat.num_divInt_den b]
  rw [Rat.divInt_mul_divInt']
  rw [qmul]

theorem qdiv_eq (a b : ℚ) : qdiv a b = a / b := by
  conv_rhs => rw [← Rat.num_divInt_den a, ← Rat.num_divInt_den b]
  rw [Rat.divInt_div_divInt]
  rw [qdiv]

theorem qmin_eq (a b : ℚ) : qmin a b = min a b := by
  rw [qmin, min_def]
  rcases lt_trichotomy a b with h | h | h
  · rw [if_pos h, if_pos h.le]
  · subst h; simp
  · rw [if_neg (lt_asymm h), if_neg (not_le.mpr h)]

theorem qmax_eq (a b : ℚ) : qmax a b = max a b := by
  rw [qmax, max_def]
  rcases lt_trichotomy a b with h | h | h
  · rw [if_pos h, if_pos h.le]
  · subst h; simp
  · rw [if_neg (lt_asymm h), if_neg (not_le.mpr h)]

/-- Python `int(x)` applied to a float: truncation toward zero. -/
def pyInt (q : ℚ) : ℤ :=
  if q.num < 0 then -((q.num.natAbs / q.den : ℕ) : ℤ) else ((q.num.natAbs / q.den : ℕ) : ℤ)

/-- Python `+` on dynamic values: numbers add, strings concatenate, and a
mixed application raises `TypeError` (as `start + 30` does for a textual
`start`). -/
def pyAdd : PyVal → PyVal → Except Err PyVal
  | .num a, .num b => .ok (.num (qadd a b))
  | .str a, .str b => .ok (.str (a ++ b))
  | _, _ => .error .typeError

/-- Coercion of a Python value to a number; a string raises `TypeError` at
its first arithmetic use (`end_time - start_time` in the script). -/
def pyNum : PyVal → Except Err ℚ
  | .num q => .ok q
  | .str _ => .error .typeError

/-- Python `s.split(':')` on the character list of a string: splits at every
colon and keeps empty components. -/
def splitCols : List Char → List (List Char)
  | [] => [[]]
  | ch :: rest =>
    let r := splitCols rest
    if ch = ':' then [] :: r
    else
      match r with
      | [] => [[ch]]
      | g :: gs => (ch :: g) :: gs

/-- Python `s.split(':')` producing strings. -/
def pySplitColon (s : String) : List String :=
  (splitCols s.data).map (fun l => ⟨l⟩)

/-- Python `':' in s`. -/
def pyContainsColon (s : String) : Bool :=
  s.data.contains ':'

/-- Numeric value of a decimal digit character. -/
def digitVal? (c : Char) : Option ℕ :=
  if '0' ≤ c ∧ c ≤ '9' then some (c.toNat - 48) else none

/-- Decimal reading of a character list; `none` when empty or when any
character is not a digit. -/
def digitsToNat? : List Char → Option ℕ
  | [] => none
  | l => l.foldl (fun acc c => acc.bind fun n => (digitVal? c).map fun d => n * 10 + d) (some 0)

/-- Python `int(s)` on a string, modelled for an optional minus sign
followed by decimal digits; any other string raises `ValueError`. -/
def pyToInt? (s : String) : Option ℤ :=
  match s.data with
  | '-' :: rest => (digitsToNat? rest).map (fun n => -(n : ℤ))
  | l => (digitsToNat? l).map (fun n => (n : ℤ))

/-- Python `int(s)` as an `Except`, raising `ValueError` on failure. -/
def pyIntOfString (s : String) : Except Err ℤ :=
  match pyToInt? s with
  | some i => .ok i
  | none => .error .valueError

/-- Python `float(s)` applied to the seconds component of a timestamp,
modelled for integral components (every timestamp component passed by the
callers of the script is integral); any other string raises `ValueError`. -/
def pyFloatOfString (s : String) : Except Err ℚ :=
  match pyToInt? s with
  | some i => .ok (qofInt i)
  | none => .error .valueError

/-- Python list indexing `parts[i]`, raising `IndexError` past the end. -/
def listGet? {α : Type} : List α → ℕ → Except Err α
  | [], _ => .error .indexError
  | a :: _, 0 => .ok a
  | _ :: l, n + 1 => listGet? l n

/-- Lines 269-275 of the script, applied to one descriptor field: a string
containing a colon is decomposed as
`int(parts[0]) * 3600 + int(parts[1]) * 60 + float(parts[2])`; any other
value is left unchanged. -/
def convertTS (v : PyVal) : Except Err PyVal :=
  match v with
  | .num q => .ok (.num q)
  | .str s =>
    if pyContainsColon s then do
      let parts := pySplitColon s
      let p0 ← listGet? parts 0
      let hh ← pyIntOfString p0
      let p1 ← listGet? parts 1
      let mm ← pyIntOfString p1
      let p2 ← listGet? parts 2
      let sec ← pyFloatOfString p2
      .ok (.num (qadd (qofInt (hh * 3600 + mm * 60)) sec))
    else .ok (.str s)

/-- A segment descriptor: a mapping with optional `start` and `end`
fields. -/
structure SegDesc where
  start? : Option PyVal
  end? : Option PyVal
deriving DecidableEq

/-- Lines 265-275 of the script: defaulting of missing fields and timestamp
conversion.  The `segment.get` call that defaults `end` to `start + 30`
evaluates its default
argument eagerly, so `start + 30` is computed (and can raise `TypeError`
for a textual `start`) even when `end` is present. -/
def normalizeSeg (s : SegDesc) : Except Err (PyVal × PyVal) := do
  let start0 := s.start?.getD (.num 0)
  let dflt ← pyAdd start0 (.num (qofInt 30))
  let end0 := s.end?.getD dflt
  let startV ← convertTS start0
  let endV ← convertTS end0
  .ok (startV, endV)

/-- One step of the frequency loop of `detect_faces_in_segment`
(lines 129-131): `count_frequency[count] = count_frequency.get(count, 0) + 1`
on an insertion-ordered dictionary. -/
def bump : List (ℕ × ℕ) → ℕ → List (ℕ × ℕ)
  | [], c => [(c, 1)]
  | (k, n) :: rest, c => if k = c then (k, n + 1) :: rest else (k, n) :: bump rest c

/-- The `count_frequency` dictionary of lines 128-131, as an association
list in key-insertion order. -/
def countFrequency (face_counts : List ℕ) : List (ℕ × ℕ) :=
  face_counts.foldl bump []

/-- Python `max(items, key=lambda x: x[1])` over a nonempty list: the fold
keeps the current maximum and replaces it only on a strictly greater key,
so the first maximal element wins. -/
def pyMaxAux (x : ℕ × ℕ) (xs : List (ℕ × ℕ)) : ℕ × ℕ :=
  xs.foldl (fun best y => if best.2 < y.2 then y else best) x

/-- Python `max(..., key=lambda x: x[1])`, `none` on an empty list. -/
def pyMax : List (ℕ × ℕ) → Option (ℕ × ℕ)
  | [] => none
  | x :: xs => some (pyMaxAux x xs)

/-- Lines 124-140 of `detect_faces_in_segment`: the mode of the sampled
per-frame face counts, with fallback 1 when no frame was read and fallback
1 when the mode is 0. -/
def aggregateFaceCounts (face_counts : List ℕ) : ℕ :=
  match pyMax (countFrequency face_counts) with
  | none => 1
  | some mc => if mc.1 = 0 then 1 else mc.1

/-- Number of occurrences of `v` in `l` (specification device for the
frequency table). -/
def countOcc (l : List ℕ) (v : ℕ) : ℕ :=
  match l with
  | [] => 0
  | c :: rest => (if c = v then 1 else 0) + countOcc rest v

/-- Index of the first occurrence of `v` in `l` (length of `l` when
absent); specification device for the insertion order of the frequency
table. -/
def firstIdx (l : List ℕ) (v : ℕ) : ℕ :=
  match l with
  | [] => 0
  | c :: rest => if c = v then 0 else firstIdx rest v + 1

/-- Lines 80-88 of `detect_faces_in_segment`: the sampled frame offsets of
a segment.  `total_frames = int(duration * fps)`; with at most 5 total
frames every frame is sampled, otherwise 5 offsets spaced by
`total_frames / 5`. -/
def sampleFrames (duration fps : ℚ) : List ℤ :=
  let total_frames := pyInt (qmul duration fps)
  if total_frames ≤ 5 then
    (List.range total_frames.toNat).map Int.ofNat
  else
    let interval := qdiv (qofInt total_frames) (qofInt 5)
    (List.range 5).map (fun i => pyInt (qmul (qofInt (Int.ofNat i)) interval))

/-- The external world of one run: whether the video path exists on disk,
whether OpenCV can open it, the frame rate it reports, which absolute frame
indices can be read, and the MediaPipe detections per frame (which may
raise an unexpected error). -/
structure World where
  pathExists : Bool
  opens : Bool
  fps0 : ℚ
  read : ℤ → Bool
  detect : ℤ → Except Err (List (ℚ × ℚ × ℚ × ℚ))

/-- The sampling loop of lines 102-120: for every offset, seek and read the
frame; a failed read is skipped, a successful one contributes the number of
detected faces, and an unexpected detector error propagates (the script has
no handler for it). -/
def collectCounts (w : World) (start_frame : ℤ) : List ℤ → Except Err (List ℕ)
  | [] => .ok []
  | off :: rest =>
    if w.read (start_frame + off) then do
      let dets ← w.detect (start_frame + off)
      let more ← collectCounts w start_frame rest
      .ok (dets.length :: more)
    else collectCounts w start_frame rest

/-- `detect_faces_in_segment` (lines 49-143): returns 1 when the video
cannot be opened, otherwise samples frames and aggregates the per-frame
face counts. -/
def detect_faces_in_segment (w : World) (start_time end_time : PyVal) : Except Err ℕ :=
  if w.opens then do
    let fps := if w.fps0 ≤ 0 then (30 : ℚ) else w.fps0
    let e ← pyNum end_time
    let s ← pyNum start_time
    let duration := qsub e s
    let sample_frames := sampleFrames duration fps
    let start_frame := pyInt (qmul s fps)
    let face_counts ← collectCounts w start_frame sample_frames
    .ok (aggregateFaceCounts face_counts)
  else .ok 1

/-- A raw MediaPipe `relative_bounding_box`: `(xmin, ymin, width, height)`. -/
structure RawBox where
  xmin : ℚ
  ymin : ℚ
  width : ℚ
  height : ℚ
deriving DecidableEq

/-- A box of the output of the script: `{x, y, width, height}`. -/
structure Box where
  x : ℚ
  y : ℚ
  width : ℚ
  height : ℚ
deriving DecidableEq

/-- Lines 218-223 of `get_face_boxes`: the clamping applied to one raw
detection. -/
def clampBox (b : RawBox) : Box :=
  { x := qmax 0 b.xmin
    y := qmax 0 b.ymin
    width := qmin (qsub 1 b.xmin) b.width
    height := qmin (qsub 1 b.ymin) b.height }

/-- Conversion of the raw detector tuple into a `RawBox`. -/
def rawBoxOf (t : ℚ × ℚ × ℚ × ℚ) : RawBox :=
  ⟨t.1, t.2.1, t.2.2.1, t.2.2.2⟩

/-- `get_face_boxes` (lines 146-228): reads the midpoint frame of the
segment and returns the first `max_faces` detections, clamped; an
unopenable video, an unreadable frame or an empty detection list gives
`[]`. -/
def get_face_boxes (w : World) (start_time end_time : PyVal) (max_faces : ℕ) :
    Except Err (List Box) :=
  if w.opens then do
    let fps := if w.fps0 ≤ 0 then (30 : ℚ) else w.fps0
    let s ← pyNum start_time
    let e ← pyNum end_time
    let midpoint := qdiv (qadd s e) (qofInt 2)
    let midpoint_frame := pyInt (qmul midpoint fps)
    if w.read midpoint_frame then do
      let dets ← w.detect midpoint_frame
      if dets.isEmpty then .ok []
      else .ok ((dets.take max_faces).map (fun t => clampBox (rawBoxOf t)))
    else .ok []
  else .ok []

/-- The display mode of a segment. -/
inductive Mode where
  | CENTER
  | SPLIT
deriving DecidableEq

/-- One record of the output of the script (lines 289-296). -/
structure SegmentResult where
  segment_index : ℕ
  start : PyVal
  stop : PyVal
  face_count : ℕ
  mode : Mode
  boxes : List Box
deriving DecidableEq

/-- The body of the segment loop of `main` (lines 265-298): normalize the
descriptor, detect the face count, decide the mode, extract boxes for
SPLIT, and build the result record (whose `start`/`end` fields echo the
original descriptor values when present). -/
def processSegment (w : World) (i : ℕ) (s : SegDesc) : Except Err SegmentResult := do
  let (startV, endV) ← normalizeSeg s
  let fc ← detect_faces_in_segment w startV endV
  let echoStart := s.start?.getD startV
  let echoEnd := s.end?.getD endV
  if 2 ≤ fc then do
    let boxes ← get_face_boxes w startV endV 2
    .ok ⟨i, echoStart, echoEnd, fc, .SPLIT, boxes⟩
  else
    .ok ⟨i, echoStart, echoEnd, fc, .CENTER, []⟩

/-- The segment loop of `main`: results are accumulated in order and an
uncaught exception aborts the whole run, discarding every result (the
script prints its output only after the loop). -/
def processAll (w : World) : ℕ → List SegDesc → Except Err (List SegmentResult)
  | _, [] => .ok []
  | i, s :: rest => do
    let r ← processSegment w i s
    let rs ← processAll w (i + 1) rest
    .ok (r :: rs)

/-- `main` (lines 235-301) after argument and JSON parsing: the run fails
up front when the video path does not exist on disk, and otherwise
processes the segments in order. -/
def mainRun (w : World) (segments : List SegDesc) : Except Err (List SegmentResult) :=
  if w.pathExists then processAll w 0 segments
  else .error .videoNotFound

theorem countOcc_append (l l' : List ℕ) (v : ℕ) :
    countOcc (l ++ l') v = countOcc l v + countOcc l' v := by
  induction l with
  | nil => simp [countOcc]
  | cons c rest ih => simp [countOcc, ih, Nat.add_assoc]

theorem countOcc_eq_zero (l : List ℕ) (v : ℕ) (h : v ∉ l) : countOcc l v = 0 := by
  induction l with
  | nil => rfl
  | cons c rest ih =>
    simp only [List.mem_cons, not_or] at h
    have hne : ¬(c = v) := fun hc => h.1 hc.symm
    simp [countOcc, ih h.2, hne]

theorem firstIdx_append_of_mem (l l' : List ℕ) (v : ℕ) (h : v ∈ l) :
    firstIdx (l ++ l') v = firstIdx l v := by
  induction l with
  | nil => cases h
  | cons c rest ih =>
    by_cases hc : c = v
    · simp [firstIdx, hc]
    · have hv : v ∈ rest := by
        rcases List.mem_cons.mp h with h1 | h1
        · exact absurd h1.symm hc
        · exact h1
      simp [firstIdx, hc, ih hv]

theorem firstIdx_append_not_mem (l l' : List ℕ) (v : ℕ) (h : v ∉ l) :
    firstIdx (l ++ l') v = l.length + firstIdx l' v := by
  induction l with
  | nil => simp [firstIdx]
  | cons c rest ih =>
    simp only [List.mem_cons, not_or] at h
    have hne : ¬(c = v) := fun hc => h.1 hc.symm
    simp [firstIdx, hne, ih h.2]
    omega

theorem firstIdx_lt_length (l : List ℕ) (v : ℕ) (h : v ∈ l) : firstIdx l v < l.length := by
  induction l with
  | nil => cases h
  | cons c rest ih =>
    by_cases hc : c = v
    · simp [firstIdx, hc]
    · have hv : v ∈ rest := by
        rcases List.mem_cons.mp h with h1 | h1
        · exact absurd h1.symm hc
        · exact h1
      simp only [firstIdx, if_neg hc, List.length_cons]
      exact Nat.succ_lt_succ (ih hv)

theorem bump_not_mem (tbl : List (ℕ × ℕ)) (c : ℕ) (h : c ∉ tbl.map Prod.fst) :
    bump tbl c = tbl ++ [(c, 1)] := by
  induction tbl with
  | nil => rfl
  | cons p rest ih =>
    obtain ⟨k, n⟩ := p
    simp only [List.map_cons, List.mem_cons, not_or] at h
    have hne : ¬(k = c) := fun hk => h.1 hk.symm
    simp [bump, hne, ih h.2]

theorem bump_mem (tbl : List (ℕ × ℕ)) (c : ℕ) (h : c ∈ tbl.map Prod.fst) :
    ∃ t₁ n t₂, tbl = t₁ ++ (c, n) :: t₂ ∧ c ∉ t₁.map Prod.fst ∧
      bump tbl c = t₁ ++ (c, n + 1) :: t₂ := by
  induction tbl with
  | nil => simp at h
  | cons p rest ih =>
    obtain ⟨k, n0⟩ := p
    by_cases hk : k = c
    · subst hk
      exact ⟨[], n0, rest, by simp, by simp, by simp [bump]⟩
    · have hc : c ∈ rest.map Prod.fst := by
        simp only [List.map_cons, List.mem_cons] at h
        rcases h with h | h
        · exact absurd h.symm hk
        · exact h
      obtain ⟨t₁, n, t₂, h1, h2, h3⟩ := ih hc
      refine ⟨(k, n0) :: t₁, n, t₂, by simp [h1], ?_, ?_⟩
      · simp only [List.map_cons, List.mem_cons, not_or]
        exact ⟨fun hc2 => hk hc2.symm, h2⟩
      · simp [bump, hk, h3]

/-- Invariant of the `count_frequency` dictionary after processing `l`:
its entries hold the exact occurrence counts, every processed value is a
key, keys are distinct, and keys appear in order of first occurrence. -/
structure GoodTable (l : List ℕ) (tbl : List (ℕ × ℕ)) : Prop where
  entries : ∀ p ∈ tbl, p.1 ∈ l ∧ p.2 = countOcc l p.1
  complete : ∀ v ∈ l, v ∈ tbl.map Prod.fst
  nodup : (tbl.map Prod.fst).Nodup
  ordered : (tbl.map Prod.fst).Pairwise (fun a b => firstIdx l a < firstIdx l b)

theorem goodTable_bump {l : List ℕ} {tbl : List (ℕ × ℕ)} (h : GoodTable l tbl) (c : ℕ) :
    GoodTable (l ++ [c]) (bump tbl c) := by
  have hkeys : ∀ a ∈ tbl.map Prod.fst, a ∈ l := by
    intro a ha
    obtain ⟨p, hp, rfl⟩ := List.mem_map.mp ha
    exact (h.entries p hp).1
  by_cases hmem : c ∈ tbl.map Prod.fst
  · obtain ⟨t₁, n, t₂, rfl, ht₁, hb⟩ := bump_mem tbl c hmem
    have hc_t₂ : c ∉ t₂.map Prod.fst := by
      have := h.nodup
      simp only [List.map_append, List.map_cons, List.nodup_append] at this
      have h2 := this.2.1
      exact (List.nodup_cons.mp h2).1
    have hcl : c ∈ l := (h.entries (c, n) (by simp)).1
    have hkeys_eq : (t₁ ++ (c, n + 1) :: t₂).map Prod.fst =
        (t₁ ++ (c, n) :: t₂).map Prod.fst := by simp
    rw [hb]
    refine ⟨?_, ?_, ?_, ?_⟩
    · intro p hp
      rcases List.mem_append.mp hp with hp1 | hp1
      · have hp_old : p ∈ t₁ ++ (c, n) :: t₂ := List.mem_append_left _ hp1
        obtain ⟨hm, hcnt⟩ := h.entries p hp_old
        have hne : p.1 ≠ c := by
          intro he
          exact ht₁ (he ▸ List.mem_map_of_mem Prod.fst hp1)
        refine ⟨List.mem_append_left _ hm, ?_⟩
        have hne2 : ¬(c = p.1) := fun hc2 => hne hc2.symm
        rw [countOcc_append, hcnt]
        simp [countOcc, hne2]
      · rcases List.mem_cons.mp hp1 with hp2 | hp2
        · subst hp2
          have hcnt : n = countOcc l c := (h.entries (c, n) (by simp)).2
          refine ⟨List.mem_append_left _ hcl, ?_⟩
          rw [countOcc_append, ← hcnt]
          simp [countOcc]
        · have hp_old : p ∈ t₁ ++ (c, n) :: t₂ := by
            exact List.mem_append_right _ (List.mem_cons_of_mem _ hp2)
          obtain ⟨hm, hcnt⟩ := h.entries p hp_old
          have hne : p.1 ≠ c := by
            intro he
            exact hc_t₂ (he ▸ List.mem_map_of_mem Prod.fst hp2)
          refine ⟨List.mem_append_left _ hm, ?_⟩
          have hne2 : ¬(c = p.1) := fun hc2 => hne hc2.symm
          rw [countOcc_append, hcnt]
          simp [countOcc, hne2]
    · intro v hv
      rw [hkeys_eq]
      rcases List.mem_append.mp hv with hv1 | hv1
      · exact h.complete v hv1
      · rcases List.mem_singleton.mp hv1 with rfl
        simp
    · rw [hkeys_eq]; exact h.nodup
    · rw [hkeys_eq]
      refine List.Pairwise.imp_of_mem ?_ h.ordered
      intro a b ha hb hab
      rw [firstIdx_append_of_mem _ _ _ (hkeys a ha), firstIdx_append_of_mem _ _ _ (hkeys b hb)]
      exact hab
  · have hcl : c ∉ l := fun hcl => hmem (h.complete c hcl)
    rw [bump_not_mem tbl c hmem]
    refine ⟨?_, ?_, ?_, ?_⟩
    · intro p hp
      rcases List.mem_append.mp hp with hp1 | hp1
      · obtain ⟨hm, hcnt⟩ := h.entries p hp1
        have hne : p.1 ≠ c := fun he => hcl (he ▸ hm)
        have hne2 : ¬(c = p.1) := fun hc2 => hne hc2.symm
        refine ⟨List.mem_append_left _ hm, ?_⟩
        rw [countOcc_append, hcnt]
        simp [countOcc, hne2]
      · rcases List.mem_singleton.mp hp1 with rfl
        refine ⟨by simp, ?_⟩
        rw [countOcc_append, countOcc_eq_zero l c hcl]
        simp [countOcc]
    · intro v hv
      simp only [List.map_append, List.map_cons, List.map_nil]
      rcases List.mem_append.mp hv with hv1 | hv1
      · exact List.mem_append_left _ (h.complete v hv1)
      · rcases List.mem_singleton.mp hv1 with rfl
        simp
    · simp only [List.map_append, List.map_cons, List.map_nil, List.nodup_append]
      exact ⟨h.nodup, List.nodup_singleton c, by simpa using hmem⟩
    · simp only [List.map_append, List.map_cons, List.map_nil, List.pairwise_append]
      refine ⟨?_, by simp, ?_⟩
      · refine List.Pairwise.imp_of_mem ?_ h.ordered
        intro a b ha hb hab
        rw [firstIdx_append_of_mem _ _ _ (hkeys a ha), firstIdx_append_of_mem _ _ _ (hkeys b hb)]
        exact hab
      · intro a ha b hb
        rcases List.mem_singleton.mp hb with rfl
        rw [firstIdx_append_of_mem _ _ _ (hkeys a ha), firstIdx_append_not_mem _ _ _ hcl]
        have : firstIdx l a < l.length := firstIdx_lt_length l a (hkeys a ha)
        simp [firstIdx]
        omega

theorem goodTable_countFrequency (l : List ℕ) : GoodTable l (countFrequency l) := by
  induction l using List.reverseRecOn with
  | nil =>
    exact ⟨by simp [countFrequency], by simp, by simp [countFrequency], by simp [countFrequency]⟩
  | append_singleton l c ih =>
    have hstep : countFrequency (l ++ [c]) = bump (countFrequency l) c := by
      simp [countFrequency, List.foldl_append]
    rw [hstep]
    exact goodTable_bump ih c

theorem pyMaxAux_cons (x y : ℕ × ℕ) (ys : List (ℕ × ℕ)) :
    pyMaxAux x (y :: ys) = pyMaxAux (if x.2 < y.2 then y else x) ys := rfl

/-- Python `max` with a key returns the first element attaining the
maximal key: the input splits into a strict-prefix part with strictly
smaller keys and a suffix part with keys at most the maximum. -/
theorem pyMaxAux_spec (xs : List (ℕ × ℕ)) (x : ℕ × ℕ) :
    ∃ l₁ l₂, x :: xs = l₁ ++ pyMaxAux x xs :: l₂ ∧
      (∀ p ∈ l₁, p.2 < (pyMaxAux x xs).2) ∧ (∀ p ∈ l₂, p.2 ≤ (pyMaxAux x xs).2) := by
  induction xs generalizing x with
  | nil => exact ⟨[], [], rfl, by simp, by simp⟩
  | cons y ys ih =>
    by_cases hxy : x.2 < y.2
    · rw [pyMaxAux_cons, if_pos hxy]
      obtain ⟨l₁, l₂, he, h1, h2⟩ := ih y
      have hy : y.2 ≤ (pyMaxAux y ys).2 := by
        cases l₁ with
        | nil =>
          simp only [List.nil_append, List.cons.injEq] at he
          rw [← he.1]
        | cons a t =>
          simp only [List.cons_append, List.cons.injEq] at he
          have hymem : y ∈ a :: t := by
            rw [he.1]
            exact List.mem_cons_self a t
          exact (h1 y hymem).le
      refine ⟨x :: l₁, l₂, ?_, ?_, h2⟩
      · rw [List.cons_append, ← he]
      · intro p hp
        rcases List.mem_cons.mp hp with rfl | hp
        · exact lt_of_lt_of_le hxy hy
        · exact h1 p hp
    · rw [pyMaxAux_cons, if_neg hxy]
      obtain ⟨l₁, l₂, he, h1, h2⟩ := ih x
      cases l₁ with
      | nil =>
        simp only [List.nil_append, List.cons.injEq] at he
        refine ⟨[], y :: l₂, ?_, by simp, ?_⟩
        · rw [List.nil_append, ← he.1, ← he.2]
        · intro p hp
          rcases List.mem_cons.mp hp with rfl | hp
          · rw [← he.1]
            exact not_lt.mp hxy
          · exact h2 p hp
      | cons a t =>
        simp only [List.cons_append, List.cons.injEq] at he
        refine ⟨x :: y :: t, l₂, ?_, ?_, h2⟩
        · rw [List.cons_append, List.cons_append]
          conv_lhs => rw [he.2]
        · intro p hp
          have hx_mem : x ∈ a :: t := by
            rw [he.1]
            exact List.mem_cons_self a t
          have hxlt : x.2 < (pyMaxAux x ys).2 := h1 x hx_mem
          rcases List.mem_cons.mp hp with rfl | hp
          · exact hxlt
          · rcases List.mem_cons.mp hp with rfl | hp
            · exact lt_of_le_of_lt (not_lt.mp hxy) hxlt
            · exact h1 p (List.mem_cons_of_mem a hp)

theorem pyMax_mem (tbl : List (ℕ × ℕ)) (r : ℕ × ℕ) (h : pyMax tbl = some r) : r ∈ tbl := by
  cases tbl with
  | nil => cases h
  | cons x xs =>
    obtain ⟨l₁, l₂, he, _, _⟩ := pyMaxAux_spec xs x
    have hr : r = pyMaxAux x xs := by
      simp only [pyMax, Option.some.injEq] at h
      exact h.symm
    rw [hr, he]
    exact List.mem_append_right _ (List.mem_cons_self _ _)

/-- What `most_common = max(count_frequency.items(), key=lambda x: x[1])[0]`
selects: a value of the sampled sequence whose frequency is maximal and,
among the values of maximal frequency, the one whose first occurrence in
the sequence is earliest. -/
theorem mode_selection (counts : List ℕ) (v f : ℕ)
    (h : pyMax (countFrequency counts) = some (v, f)) :
    v ∈ counts ∧ f = countOcc counts v ∧
      (∀ w ∈ counts, countOcc counts w ≤ f) ∧
      (∀ w ∈ counts, countOcc counts w = f → firstIdx counts v ≤ firstIdx counts w) := by
  have hg := goodTable_countFrequency counts
  obtain ⟨hv, hf⟩ := hg.entries _ (pyMax_mem _ _ h)
  cases htbl : countFrequency counts with
  | nil => rw [htbl] at h; cases h
  | cons x xs =>
    rw [htbl] at h
    simp only [pyMax, Option.some.injEq] at h
    obtain ⟨l₁, l₂, he, h1, h2⟩ := pyMaxAux_spec xs x
    rw [h] at he h1 h2
    have hentry : ∀ w ∈ counts, (w, countOcc counts w) ∈ x :: xs := by
      intro w hw
      have hkey : w ∈ (countFrequency counts).map Prod.fst := hg.complete w hw
      obtain ⟨p, hp, hp1⟩ := List.mem_map.mp hkey
      obtain ⟨_, hp2⟩ := hg.entries p hp
      have : p = (w, countOcc counts w) := by
        obtain ⟨pa, pb⟩ := p
        simp only at hp1 hp2
        rw [hp1] at hp2 ⊢
        rw [hp2]
      rw [← this, ← htbl]
      exact htbl ▸ hp
    refine ⟨hv, hf, ?_, ?_⟩
    · intro w hw
      have hp := hentry w hw
      rw [he] at hp
      rcases List.mem_append.mp hp with hp1 | hp1
      · exact (h1 _ hp1).le
      · rcases List.mem_cons.mp hp1 with heq | hp2
        · rw [(Prod.mk.injEq _ _ _ _).mp heq |>.2]
        · exact h2 _ hp2
    · intro w hw hwf
      have hp := hentry w hw
      rw [hwf, he] at hp
      rcases List.mem_append.mp hp with hp1 | hp1
      · exact absurd (h1 _ hp1) (by simp)
      · rcases List.mem_cons.mp hp1 with heq | hp2
        · rw [((Prod.mk.injEq _ _ _ _).mp heq).1]
        · have hord := hg.ordered
          rw [htbl, he] at hord
          simp only [List.map_append, List.map_cons, List.pairwise_append,
            List.pairwise_cons] at hord
          have := hord.2.1.1 w (List.mem_map_of_mem Prod.fst hp2)
          exact this.le

theorem exceptBind_ok {ε α β : Type} (e : Except ε α) (f : α → Except ε β) (b : β)
    (h : e >>= f = .ok b) : ∃ a, e = .ok a ∧ f a = .ok b := by
  cases e with
  | ok a => exact ⟨a, rfl, by simpa [Bind.bind, Except.bind] using h⟩
  | error err => simp [Bind.bind, Except.bind] at h

theorem aggregate_pos (l : List ℕ) : 1 ≤ aggregateFaceCounts l := by
  unfold aggregateFaceCounts
  cases h : pyMax (countFrequency l) with
  | none => exact le_refl 1
  | some mc =>
    by_cases h0 : mc.1 = 0
    · simp [h0]
    · simp only [h0, if_false]
      omega

theorem aggregate_zero (l : List ℕ) (h : ∀ x ∈ l, x = 0) : aggregateFaceCounts l = 1 := by
  unfold aggregateFaceCounts
  cases hp : pyMax (countFrequency l) with
  | none => rfl
  | some mc =>
    obtain ⟨v, f⟩ := mc
    have hv := (mode_selection l v f hp).1
    simp [h v hv]

theorem collectCounts_all_empty (w : World) (hd : ∀ j, w.detect j = .ok []) (sf : ℤ) :
    ∀ (frames : List ℤ) (l : List ℕ), collectCounts w sf frames = .ok l → ∀ x ∈ l, x = 0 := by
  intro frames
  induction frames with
  | nil =>
    intro l h x hx
    simp only [collectCounts, Except.ok.injEq] at h
    rw [← h] at hx
    cases hx
  | cons off rest ih =>
    intro l h x hx
    unfold collectCounts at h
    by_cases hr : w.read (sf + off) = true
    · rw [if_pos hr] at h
      obtain ⟨dets, hdets, h⟩ := exceptBind_ok _ _ _ h
      obtain ⟨more, hmore, h⟩ := exceptBind_ok _ _ _ h
      rw [hd (sf + off)] at hdets
      simp only [Except.ok.injEq] at hdets h
      rw [← h, ← hdets] at hx
      simp only [List.length_nil] at hx
      rcases List.mem_cons.mp hx with rfl | hx
      · rfl
      · exact ih more hmore x hx
    · rw [if_neg hr] at h
      exact ih l h x hx

theorem detect_ok_pos (w : World) (sv ev : PyVal) (n : ℕ)
    (h : detect_faces_in_segment w sv ev = .ok n) : 1 ≤ n := by
  unfold detect_faces_in_segment at h
  by_cases ho : w.opens = true
  · rw [if_pos ho] at h
    obtain ⟨e1, he1, h⟩ := exceptBind_ok _ _ _ h
    obtain ⟨s1, hs1, h⟩ := exceptBind_ok _ _ _ h
    obtain ⟨counts, hcts, h⟩ := exceptBind_ok _ _ _ h
    simp only [Except.ok.injEq] at h
    rw [← h]
    exact aggregate_pos counts
  · rw [if_neg ho] at h
    simp only [Except.ok.injEq] at h
    omega

theorem detect_all_empty (w : World) (hd : ∀ j, w.detect j = .ok []) (sv ev : PyVal) (n : ℕ)
    (h : detect_faces_in_segment w sv ev = .ok n) : n = 1 := by
  unfold detect_faces_in_segment at h
  by_cases ho : w.opens = true
  · rw [if_pos ho] at h
    obtain ⟨e1, he1, h⟩ := exceptBind_ok _ _ _ h
    obtain ⟨s1, hs1, h⟩ := exceptBind_ok _ _ _ h
    obtain ⟨counts, hcts, h⟩ := exceptBind_ok _ _ _ h
    have hz := collectCounts_all_empty w hd _ _ counts hcts
    simp only [Except.ok.injEq] at h
    rw [← h]
    exact aggregate_zero counts hz
  · rw [if_neg ho] at h
    simp only [Except.ok.injEq] at h
    omega

theorem processSegment_ok_pos (w : World) (i : ℕ) (s : SegDesc) (r : SegmentResult)
    (h : processSegment w i s = .ok r) : 1 ≤ r.face_count := by
  unfold processSegment at h
  obtain ⟨p, hp, h⟩ := exceptBind_ok _ _ _ h
  obtain ⟨sv, ev⟩ := p
  obtain ⟨fc, hfc, h⟩ := exceptBind_ok _ _ _ h
  have hpos := detect_ok_pos w sv ev fc hfc
  by_cases h2 : 2 ≤ fc
  · rw [if_pos h2] at h
    obtain ⟨boxes, hb, h⟩ := exceptBind_ok _ _ _ h
    simp only [Except.ok.injEq] at h
    rw [← h]
    exact hpos
  · rw [if_neg h2] at h
    simp only [Except.ok.injEq] at h
    rw [← h]
    exact hpos

theorem processSegment_all_empty (w : World) (hd : ∀ j, w.detect j = .ok []) (i : ℕ)
    (s : SegDesc) (r : SegmentResult) (h : processSegment w i s = .ok r) :
    r.face_count = 1 ∧ r.mode = Mode.CENTER ∧ r.boxes = [] := by
  unfold processSegment at h
  obtain ⟨p, hp, h⟩ := exceptBind_ok _ _ _ h
  obtain ⟨sv, ev⟩ := p
  obtain ⟨fc, hfc, h⟩ := exceptBind_ok _ _ _ h
  have h1 : fc = 1 := detect_all_empty w hd sv ev fc hfc
  subst h1
  rw [if_neg (by omega)] at h
  simp only [Except.ok.injEq] at h
  rw [← h]
  exact ⟨rfl, rfl, rfl⟩

theorem detect_not_opens (w : World) (ho : w.opens = false) (sv ev : PyVal) :
    detect_faces_in_segment w sv ev = .ok 1 := by
  unfold detect_faces_in_segment
  rw [if_neg (by simp [ho])]

theorem processSegment_not_opens (w : World) (ho : w.opens = false) (i : ℕ) (s : SegDesc)
    (sv ev : PyVal) (hn : normalizeSeg s = .ok (sv, ev)) :
    processSegment w i s = .ok ⟨i, s.start?.getD sv, s.end?.getD ev, 1, .CENTER, []⟩ := by
  unfold processSegment
  rw [hn]
  simp only [Bind.bind, Except.bind]
  rw [detect_not_opens w ho sv ev]
  simp

theorem processAll_ok_pos (w : World) :
    ∀ (segs : List SegDesc) (i : ℕ) (rs : List SegmentResult),
      processAll w i segs = .ok rs → ∀ r ∈ rs, 1 ≤ r.face_count := by
  intro segs
  induction segs with
  | nil =>
    intro i rs h r hr
    simp only [processAll, Except.ok.injEq] at h
    rw [← h] at hr
    cases hr
  | cons s rest ih =>
    intro i rs h r hr
    unfold processAll at h
    obtain ⟨r0, hr0, h⟩ := exceptBind_ok _ _ _ h
    obtain ⟨rs2, hrs2, h⟩ := exceptBind_ok _ _ _ h
    simp only [Except.ok.injEq] at h
    rw [← h] at hr
    rcases List.mem_cons.mp hr with rfl | hr
    · exact processSegment_ok_pos w i s r hr0
    · exact ih (i + 1) rs2 hrs2 r hr

theorem processAll_all_empty (w : World) (hd : ∀ j, w.detect j = .ok []) :
    ∀ (segs : List SegDesc) (i : ℕ) (rs : List SegmentResult),
      processAll w i segs = .ok rs →
      ∀ r ∈ rs, r.face_count = 1 ∧ r.mode = Mode.CENTER ∧ r.boxes = [] := by
  intro segs
  induction segs with
  | nil =>
    intro i rs h r hr
    simp only [processAll, Except.ok.injEq] at h
    rw [← h] at hr
    cases hr
  | cons s rest ih =>
    intro i rs h r hr
    unfold processAll at h
    obtain ⟨r0, hr0, h⟩ := exceptBind_ok _ _ _ h
    obtain ⟨rs2, hrs2, h⟩ := exceptBind_ok _ _ _ h
    simp only [Except.ok.injEq] at h
    rw [← h] at hr
    rcases List.mem_cons.mp hr with rfl | hr
    · exact processSegment_all_empty w hd i s r hr0
    · exact ih (i + 1) rs2 hrs2 r hr

theorem processAll_not_opens (w : World) (ho : w.opens = false) :
    ∀ (segs : List SegDesc) (i : ℕ),
      (∀ s ∈ segs, ∃ sv ev, normalizeSeg s = .ok (sv, ev)) →
      ∃ rs, processAll w i segs = .ok rs ∧
        ∀ r ∈ rs, r.face_count = 1 ∧ r.mode = Mode.CENTER ∧ r.boxes = [] := by
  intro segs
  induction segs with
  | nil => exact fun i _ => ⟨[], rfl, by simp⟩
  | cons s rest ih =>
    intro i hall
    obtain ⟨sv, ev, hn⟩ := hall s (List.mem_cons_self s rest)
    obtain ⟨rs, hrs, hprop⟩ := ih (i + 1) (fun t ht => hall t (List.mem_cons_of_mem s ht))
    refine ⟨⟨i, s.start?.getD sv, s.end?.getD ev, 1, .CENTER, []⟩ :: rs, ?_, ?_⟩
    · unfold processAll
      rw [processSegment_not_opens w ho i s sv ev hn]
      simp only [Bind.bind, Except.bind]
      rw [hrs]
    · intro r hr
      rcases List.mem_cons.mp hr with rfl | hr
      · exact ⟨rfl, rfl, rfl⟩
      · exact hprop r hr

theorem processAll_cons_error (w : World) (i : ℕ) (s : SegDesc) (rest : List SegDesc) (e : Err)
    (h : processSegment w i s = .error e) : processAll w i (s :: rest) = .error e := by
  unfold processAll
  rw [h]
  rfl

/-- A world whose detector reports no face in any frame. -/
def allEmptyWorld : World := ⟨true, true, 30, fun _ => true, fun _ => .ok []⟩

/-- A world whose detector raises an unexpected error on every frame. -/
def raisingWorld : World := ⟨true, true, 30, fun _ => true, fun _ => .error .detectorError⟩

/-- A world whose video file exists on disk but cannot be opened by
OpenCV. -/
def unopenableWorld : World := ⟨true, false, 30, fun _ => true, fun _ => .ok []⟩

/-- A world whose video file does not exist on disk. -/
def missingWorld : World := ⟨false, true, 30, fun _ => true, fun _ => .ok []⟩

/-- A world that reads every frame and always returns the given
detections. -/
def constWorld (dets : List (ℚ × ℚ × ℚ × ℚ)) : World :=
  ⟨true, true, 30, fun _ => true, fun _ => .ok dets⟩

/-- C1, counterexample: per-frame counts `[1, 1, 2, 2]` have the values 1
and 2 tied at the maximal frequency 2, and the aggregator resolves the
segment to `face_count = 1`, not to the largest tied value 2 stated by the
claim: the Python `max` over the insertion-ordered dictionary keeps the first
maximal item, which is the count value observed first. -/
theorem aggregate_tie_counts_1122 :
    countOcc [1, 1, 2, 2] 1 = 2 ∧ countOcc [1, 1, 2, 2] 2 = 2 ∧
      aggregateFaceCounts [1, 1, 2, 2] = 1 ∧ aggregateFaceCounts [1, 1, 2, 2] ≠ 2 := by
  decide

/-- C1, amended: when count values tie at the maximal frequency, the
Detection Aggregator deterministically selects the tied value whose first
occurrence in the sampled per-frame sequence is earliest (so `[1, 1, 2, 2]`
resolves to 1): the selected value has maximal frequency, and any value of
the same frequency first occurs no earlier; a nonzero selected value is the
`face_count` of the segment. -/
theorem aggregate_mode_first_occurrence_tie_break (counts : List ℕ) (v f : ℕ)
    (h : pyMax (countFrequency counts) = some (v, f)) :
    v ∈ counts ∧ f = countOcc counts v ∧
      (∀ w ∈ counts, countOcc counts w ≤ f) ∧
      (∀ w ∈ counts, countOcc counts w = f → firstIdx counts v ≤ firstIdx counts w) ∧
      (v ≠ 0 → aggregateFaceCounts counts = v) := by
  obtain ⟨h1, h2, h3, h4⟩ := mode_selection counts v f h
  refine ⟨h1, h2, h3, h4, ?_⟩
  intro hv
  unfold aggregateFaceCounts
  rw [h]
  simp [hv]

theorem aggregate_mode_tie_break_witness :
    (1 : ℕ) ∈ [1, 1, 2, 2] ∧ countOcc [1, 1, 2, 2] 2 ≤ 2 ∧
      firstIdx [1, 1, 2, 2] 1 ≤ firstIdx [1, 1, 2, 2] 2 ∧
      aggregateFaceCounts [1, 1, 2, 2] = 1 := by
  obtain ⟨h1, h2, h3, h4, h5⟩ :=
    aggregate_mode_first_occurrence_tie_break [1, 1, 2, 2] 1 2 (by decide)
  exact ⟨h1, h3 2 (by decide), h4 2 (by decide) (by decide), h5 (by decide)⟩

/-- C2, counterexample: a two-component `MM:SS` timestamp raises
`IndexError` (the conversion always reads `parts[2]`): `parse("02:05")` is
not `125.0`. -/
theorem convertTS_mmss_raises :
    convertTS (.str "02:05") = .error .indexError ∧
      convertTS (.str "02:05") ≠ .ok (.num 125) := by
  decide

/-- C2, amended: a numeric input is returned unchanged, and a colon-bearing
string with exactly three integrally-parsed components `H:M:S` converts to
`H*3600 + M*60 + S` seconds; a two-component `MM:SS` string instead raises
`IndexError` (see the counterexample). -/
theorem convertTS_spec :
    (∀ q : ℚ, convertTS (.num q) = .ok (.num q)) ∧
      ∀ (s a b c : String) (hh mm : ℤ) (sec : ℚ),
        pyContainsColon s = true → pySplitColon s = [a, b, c] →
        pyIntOfString a = .ok hh → pyIntOfString b = .ok mm →
        pyFloatOfString c = .ok sec →
        convertTS (.str s) = .ok (.num (((hh * 3600 + mm * 60 : ℤ) : ℚ) + sec)) := by
  constructor
  · intro q
    rfl
  · intro s a b c hh mm sec h1 h2 h3 h4 h5
    simp only [convertTS]
    rw [if_pos h1]
    simp only [h2, listGet?, Bind.bind, Except.bind, h3, h4, h5]
    rw [qadd_eq, qofInt_eq]

theorem convertTS_witness :
    convertTS (.str "01:02:03") = .ok (.num 3723) ∧
      convertTS (.num 42) = .ok (.num 42) := by
  constructor
  · have h := convertTS_spec.2 "01:02:03" "01" "02" "03" 1 2 3
      (by decide) (by decide) (by decide) (by decide) (by decide)
    have h2 : ((1 * 3600 + 2 * 60 : ℤ) : ℚ) + 3 = 3723 := by norm_num
    rw [h, h2]
  · exact convertTS_spec.1 42

/-- C3, counterexample: a raw detection overhanging the left frame edge,
`xmin = -1/2` with `width = 7/5`, is clamped to `x = 0` while the width
clamp `min(1 - bbox.xmin, bbox.width)` is computed from the raw `xmin`
(budget `1 - (-1/2) = 3/2`), so the returned box keeps `width = 7/5` and
violates `x + width ≤ 1`. -/
theorem get_face_boxes_clamp_counterexample :
    get_face_boxes (constWorld [(mkRat (-1) 2, 0, mkRat 7 5, mkRat 1 2)])
        (.num 0) (.num 10) 2 = .ok [⟨0, 0, mkRat 7 5, mkRat 1 2⟩] ∧
      ¬((⟨0, 0, mkRat 7 5, mkRat 1 2⟩ : Box).x +
          (⟨0, 0, mkRat 7 5, mkRat 1 2⟩ : Box).width ≤ 1) := by
  constructor
  · decide
  · have h : mkRat 7 5 = (7 / 5 : ℚ) := by
      rw [Rat.mkRat_eq_divInt, Rat.divInt_eq_div]
      norm_num
    show ¬((0 : ℚ) + mkRat 7 5 ≤ 1)
    rw [h]
    norm_num

/-- C3, amended: for every raw detection whose `xmin` and `ymin` lie in
`[0, 1]` (its `width`/`height` may still extend past the frame edge), the
clamped box satisfies `x ∈ [0, 1]`, `y ∈ [0, 1]`, `x + width ≤ 1` and
`y + height ≤ 1`; a raw box with `xmin` outside `[0, 1]` can violate the
invariant (see the counterexample), though it is still clamped, never
rejected. -/
theorem clampBox_spec (b : RawBox) (hx0 : 0 ≤ b.xmin) (hx1 : b.xmin ≤ 1)
    (hy0 : 0 ≤ b.ymin) (hy1 : b.ymin ≤ 1) :
    (0 ≤ (clampBox b).x ∧ (clampBox b).x ≤ 1) ∧
      (0 ≤ (clampBox b).y ∧ (clampBox b).y ≤ 1) ∧
      (clampBox b).x + (clampBox b).width ≤ 1 ∧
      (clampBox b).y + (clampBox b).height ≤ 1 := by
  unfold clampBox
  simp only [qmax_eq, qmin_eq, qsub_eq]
  have hxx : max 0 b.xmin = b.xmin := max_eq_right hx0
  have hyy : max 0 b.ymin = b.ymin := max_eq_right hy0
  rw [hxx, hyy]
  refine ⟨⟨hx0, hx1⟩, ⟨hy0, hy1⟩, ?_, ?_⟩
  · have := min_le_left (1 - b.xmin) b.width
    linarith
  · have := min_le_left (1 - b.ymin) b.height
    linarith

theorem clampBox_witness :
    (clampBox ⟨mkRat 19 20, mkRat 3 10, mkRat 1 5, mkRat 1 5⟩).x +
        (clampBox ⟨mkRat 19 20, mkRat 3 10, mkRat 1 5, mkRat 1 5⟩).width ≤ 1 ∧
      (clampBox ⟨mkRat 19 20, mkRat 3 10, mkRat 1 5, mkRat 1 5⟩).x +
        (clampBox ⟨mkRat 19 20, mkRat 3 10, mkRat 1 5, mkRat 1 5⟩).width = 1 := by
  constructor
  · exact (clampBox_spec ⟨mkRat 19 20, mkRat 3 10, mkRat 1 5, mkRat 1 5⟩
      (by decide) (by decide) (by decide) (by decide)).2.2.1
  · have h : clampBox ⟨mkRat 19 20, mkRat 3 10, mkRat 1 5, mkRat 1 5⟩ =
        ⟨mkRat 19 20, mkRat 3 10, mkRat 1 20, mkRat 1 5⟩ := by decide
    rw [h]
    show mkRat 19 20 + mkRat 1 20 = 1
    rw [Rat.mkRat_eq_divInt, Rat.mkRat_eq_divInt, Rat.divInt_eq_div, Rat.divInt_eq_div]
    norm_num

/-- C4: in any world whose detector reports zero faces on every frame the
script samples, every segment result the pipeline emits carries the
fallback `face_count = 1` with `mode = CENTER` and `boxes = []` (the mode
of the all-zero counts is 0, promoted to 1 by lines 137-138). -/
theorem zero_detection_fallback (w : World) (hd : ∀ j, w.detect j = .ok [])
    (i : ℕ) (s : SegDesc) (r : SegmentResult) (h : processSegment w i s = .ok r) :
    r.face_count = 1 ∧ r.mode = Mode.CENTER ∧ r.boxes = [] :=
  processSegment_all_empty w hd i s r h

theorem zero_detection_fallback_witness :
    (⟨0, .num 0, .num 10, 1, .CENTER, []⟩ : SegmentResult).face_count = 1 ∧
      (⟨0, .num 0, .num 10, 1, .CENTER, []⟩ : SegmentResult).mode = Mode.CENTER ∧
      (⟨0, .num 0, .num 10, 1, .CENTER, []⟩ : SegmentResult).boxes = [] :=
  zero_detection_fallback allEmptyWorld (fun _ => rfl) 0 ⟨some (.num 0), some (.num 10)⟩
    ⟨0, .num 0, .num 10, 1, .CENTER, []⟩ (by decide)

/-- C5, counterexample: with an unexpected detector error on the first of
two segments, the run aborts with the error: no fallback result is emitted
for the failing segment and the second segment is never processed. -/
theorem detector_error_aborts_run :
    mainRun raisingWorld
        [⟨some (.num 0), some (.num 10)⟩, ⟨some (.num 20), some (.num 30)⟩] =
      .error .detectorError := by
  decide

/-- C5, amended: the segment loop has no exception handler: an unexpected
error raised while processing a segment propagates out of `main`, aborting
the run with no `SegmentResult` for that segment or any later one (only
open/read failures degrade to the per-segment fallback). -/
theorem detector_error_propagates (w : World) (s : SegDesc) (rest : List SegDesc) (e : Err)
    (hp : w.pathExists = true) (h : processSegment w 0 s = .error e) :
    mainRun w (s :: rest) = .error e := by
  unfold mainRun
  rw [if_pos hp]
  exact processAll_cons_error w 0 s rest e h

theorem detector_error_propagates_witness :
    mainRun raisingWorld [⟨some (.num 0), some (.num 20)⟩] = .error .detectorError :=
  detector_error_propagates raisingWorld ⟨some (.num 0), some (.num 20)⟩ [] .detectorError
    rfl (by decide)

/-- C6, counterexample: a video that exists on disk but cannot be opened by
the decoder does not abort the run: `detect_faces_in_segment` logs and
returns the fallback 1, and a `SegmentResult` is emitted for the segment
(the script only aborts when `Path(video_path).exists()` is false). -/
theorem unopenable_video_does_not_abort :
    mainRun unopenableWorld [⟨some (.num 0), some (.num 10)⟩] =
      .ok [⟨0, .num 0, .num 10, 1, .CENTER, []⟩] := by
  decide

/-- C6, amended: only a video path missing from disk makes the whole run
fail with an explicit error before any segment is processed; a video that
exists but cannot be opened aborts nothing — every segment (whose
descriptor normalizes) emits the fallback `face_count = 1`, `CENTER`,
no boxes. -/
theorem video_open_failure_behaviour :
    (∀ (w : World) (segs : List SegDesc), w.pathExists = false →
        mainRun w segs = .error .videoNotFound) ∧
      ∀ (w : World) (segs : List SegDesc), w.pathExists = true → w.opens = false →
        (∀ s ∈ segs, ∃ sv ev, normalizeSeg s = .ok (sv, ev)) →
        ∃ rs, mainRun w segs = .ok rs ∧
          ∀ r ∈ rs, r.face_count = 1 ∧ r.mode = Mode.CENTER ∧ r.boxes = [] := by
  constructor
  · intro w segs hp
    unfold mainRun
    rw [if_neg (by simp [hp])]
  · intro w segs hp ho hall
    unfold mainRun
    rw [if_pos hp]
    exact processAll_not_opens w ho segs 0 hall

theorem video_open_failure_witness :
    mainRun missingWorld [⟨none, none⟩] = .error .videoNotFound :=
  video_open_failure_behaviour.1 missingWorld [⟨none, none⟩] rfl

/-- C7, counterexample: the same box (identical coordinates) observed twice
in the midpoint frame is returned twice, not once: `get_face_boxes`
performs no deduplication, it returns the first `max_faces` raw detections
clamped. -/
theorem duplicate_box_retained_twice :
    get_face_boxes (constWorld [(mkRat 1 4, mkRat 1 4, mkRat 1 5, mkRat 1 5),
        (mkRat 1 4, mkRat 1 4, mkRat 1 5, mkRat 1 5)]) (.num 0) (.num 10) 2 =
      .ok [⟨mkRat 1 4, mkRat 1 4, mkRat 1 5, mkRat 1 5⟩,
        ⟨mkRat 1 4, mkRat 1 4, mkRat 1 5, mkRat 1 5⟩] ∧
      [(⟨mkRat 1 4, mkRat 1 4, mkRat 1 5, mkRat 1 5⟩ : Box),
        ⟨mkRat 1 4, mkRat 1 4, mkRat 1 5, mkRat 1 5⟩].length ≠ 1 := by
  decide

/-- C7, amended: the Box Collector is not idempotent with respect to
duplicates: for every raw detection `b`, a midpoint frame reporting `b`
twice yields both (clamped) copies in the returned list. -/
theorem no_deduplication (b : ℚ × ℚ × ℚ × ℚ) :
    get_face_boxes (constWorld [b, b]) (.num 0) (.num 10) 2 =
      .ok [clampBox (rawBoxOf b), clampBox (rawBoxOf b)] := rfl

/-- C8, counterexample: a segment of duration `1/100` s (> 0) at 30 fps has
`int(duration * fps) = int(0.3) = 0` total frames, so the Frame Sampler
returns an empty sequence for a strictly positive duration. -/
theorem sampler_empty_on_positive_duration :
    (0 < mkRat 1 100) ∧ sampleFrames (mkRat 1 100) 30 = [] := by
  decide

/-- C8, amended: the sampled sequence is empty exactly when the truncated
frame count `int(duration * fps)` is below 1 — so durations in
`(0, 1/fps)` also degrade to the zero-detection fallback, not only
durations ≤ 0. -/
theorem sampleFrames_empty_iff (duration fps : ℚ) :
    sampleFrames duration fps = [] ↔ pyInt (duration * fps) < 1 := by
  unfold sampleFrames
  rw [qmul_eq]
  by_cases h5 : pyInt (duration * fps) ≤ 5
  · rw [if_pos h5]
    simp only [List.map_eq_nil_iff, List.range_eq_nil]
    omega
  · rw [if_neg h5]
    constructor
    · intro h
      simp only [List.map_eq_nil_iff, List.range_eq_nil] at h
      omega
    · intro h
      omega

/-- C9: the script intends to support textual `start` timestamps (lines
270-272 are dedicated to converting them), but
the `segment.get` defaulting of `end` to `start + 30` on line 267 computes the default
argument eagerly on the *unconverted* value, so any string `start` raises
`TypeError` — even when `end` is present — before the conversion can run,
aborting the whole run.  Defaulting works as claimed when `start` is
numeric or missing: a missing `start` becomes 0 and a missing `end`
becomes `start + 30`. -/
theorem segment_defaults :
    (∀ q : ℚ, normalizeSeg ⟨some (.num q), none⟩ = .ok (.num q, .num (q + 30))) ∧
      normalizeSeg ⟨none, none⟩ = .ok (.num 0, .num 30) ∧
      normalizeSeg ⟨some (.str "00:01:00"), none⟩ = .error .typeError ∧
      normalizeSeg ⟨some (.str "00:01:00"), some (.num 90)⟩ = .error .typeError := by
  refine ⟨?_, by decide, by decide, by decide⟩
  intro q
  unfold normalizeSeg
  simp only [Option.getD_some, Option.getD_none, pyAdd, Bind.bind, Except.bind, convertTS]
  rw [qadd_eq, qofInt_eq]
  norm_num

/-- C10: every emitted `SegmentResult` has `face_count ≥ 1`: each failure
path (unopenable video, no readable frame, empty sample set) returns 1, a
zero mode is promoted to 1, and a nonzero mode is at least 1 — so the
open question of a 0-vs-1 zero-detection fallback is resolved as 1 in this
implementation. -/
theorem face_count_at_least_one (w : World) (segs : List SegDesc) (rs : List SegmentResult)
    (h : mainRun w segs = .ok rs) : ∀ r ∈ rs, 1 ≤ r.face_count := by
  unfold mainRun at h
  by_cases hp : w.pathExists = true
  · rw [if_pos hp] at h
    exact processAll_ok_pos w segs 0 rs h
  · rw [if_neg hp] at h
    cases h

theorem face_count_at_least_one_witness :
    1 ≤ (⟨0, .num 0, .num 30, 1, .CENTER, []⟩ : SegmentResult).face_count :=
  face_count_at_least_one unopenableWorld [⟨none, none⟩]
    [⟨0, .num 0, .num 30, 1, .CENTER, []⟩] (by decide)
    ⟨0, .num 0, .num 30, 1, .CENTER, []⟩ (by simp)
